import Mathlib

/-!
Shallow embedding of the VGA text-mode terminal driver in
`src/kernel/kernel.c` (SAGCO LIVE v0.1.0).

The driver's state is the cursor position (`terminal_row`,
`terminal_column`), the current color attribute (`terminal_color`) and the
VGA cell buffer (`terminal_buffer`, a flat array of 16-bit cells indexed by
`y * VGA_WIDTH + x`).  The buffer is modelled as a total function
`Nat → Nat`; the grid proper consists of the indices below
`VGA_HEIGHT * VGA_WIDTH`.  Bytes and attributes are modelled as `Nat`
with the C integral conversions written as explicit `% 256` / `% 65536`.
-/

/-- `#define VGA_WIDTH 80` -/
def VGA_WIDTH : Nat := 80

/-- `#define VGA_HEIGHT 25` -/
def VGA_HEIGHT : Nat := 25

/-- `VGA_BLACK = 0` from `enum vga_color`. -/
def VGA_BLACK : Nat := 0

/-- `VGA_LIGHT_CYAN = 11` from `enum vga_color`. -/
def VGA_LIGHT_CYAN : Nat := 11

/-- `vga_entry_color(fg, bg) { return fg | bg << 4; }` — the `int` result is
converted to `uint8_t`, hence the `% 256`. -/
def vga_entry_color (fg bg : Nat) : Nat := (fg ||| (bg <<< 4)) % 256

/-- `vga_entry(uc, color) { return (uint16_t) uc | (uint16_t) color << 8; }` —
the arguments arrive as `unsigned char` and `uint8_t` (hence `% 256` on
each) and the result is a `uint16_t` (hence `% 65536`). -/
def vga_entry (uc color : Nat) : Nat :=
  ((uc % 256) ||| ((color % 256) <<< 8)) % 65536

/-- The four globals `terminal_row`, `terminal_column`, `terminal_color`,
`terminal_buffer` of kernel.c, bundled as one state record. -/
structure TerminalState where
  row : Nat
  column : Nat
  color : Nat
  buffer : Nat → Nat

/-- `terminal_initialize`: row = 0, column = 0, color = light cyan on black,
and every grid cell (index `y * VGA_WIDTH + x` with `y < VGA_HEIGHT`,
`x < VGA_WIDTH`, i.e. every index below `VGA_HEIGHT * VGA_WIDTH`) is set to
`vga_entry(' ', color)`.  `oldbuf` is the arbitrary pre-boot content of the
VGA memory; indices outside the grid keep it. -/
def terminal_init (oldbuf : Nat → Nat) : TerminalState :=
  { row := 0
    column := 0
    color := vga_entry_color VGA_LIGHT_CYAN VGA_BLACK
    buffer := fun i =>
      if i < VGA_HEIGHT * VGA_WIDTH then
        vga_entry 32 (vga_entry_color VGA_LIGHT_CYAN VGA_BLACK)
      else oldbuf i }

/-- `terminal_setcolor(color)` — the parameter is a `uint8_t`. -/
def terminal_setcolor (color : Nat) (s : TerminalState) : TerminalState :=
  { s with color := color % 256 }

/-- `terminal_putentryat(c, color, x, y)`: store `vga_entry(c, color)` at
index `y * VGA_WIDTH + x`. -/
def terminal_putentryat (c color x y : Nat) (s : TerminalState) :
    TerminalState :=
  { s with
    buffer := fun i =>
      if i = y * VGA_WIDTH + x then vga_entry c color else s.buffer i }

/-- `terminal_putchar(c)`: newline (byte 10) resets the column and advances
the row, wrapping `VGA_HEIGHT → 0`; any other byte is stored at the cursor
with the current color, then the column advances, wrapping at `VGA_WIDTH`
with the same row rule. -/
def terminal_putchar (c : Nat) (s : TerminalState) : TerminalState :=
  if c = 10 then
    { s with
      column := 0
      row := if s.row + 1 = VGA_HEIGHT then 0 else s.row + 1 }
  else
    let s1 := terminal_putentryat c s.color s.column s.row s
    if s1.column + 1 = VGA_WIDTH then
      { s1 with
        column := 0
        row := if s1.row + 1 = VGA_HEIGHT then 0 else s1.row + 1 }
    else
      { s1 with column := s1.column + 1 }

/-- `terminal_write(data, size)`: apply `terminal_putchar` to each byte in
order.  The list is the `size` bytes `data[0] .. data[size-1]`. -/
def terminal_write (data : List Nat) (s : TerminalState) : TerminalState :=
  data.foldl (fun st c => terminal_putchar c st) s

/-- `strlen`: number of bytes before the first NUL. -/
def cstrlen : List Nat → Nat
  | [] => 0
  | c :: rest => if c = 0 then 0 else cstrlen rest + 1

/-- `terminal_writestring(data)` = `terminal_write(data, strlen(data))`. -/
def terminal_writestring (data : List Nat) (s : TerminalState) :
    TerminalState :=
  terminal_write (data.take (cstrlen data)) s

/-- `terminal_writeline(data)`: `terminal_writestring(data)` then one
`terminal_putchar('\n')`. -/
def terminal_writeline (data : List Nat) (s : TerminalState) :
    TerminalState :=
  terminal_putchar 10 (terminal_writestring data s)

/-- The cursor-bounds invariant of the spec:
`0 ≤ row < VGA_HEIGHT ∧ 0 ≤ column < VGA_WIDTH`. -/
def TermInv (s : TerminalState) : Prop :=
  s.row < VGA_HEIGHT ∧ s.column < VGA_WIDTH

instance (s : TerminalState) : Decidable (TermInv s) :=
  inferInstanceAs (Decidable (And _ _))

/-! ### Helper lemmas -/

/-- Or-ing a value shifted past the width of a small value is addition. -/
theorem shiftLeft_or_eq_add {c : Nat} (a n : Nat) (h : c < 2 ^ n) :
    (a <<< n) ||| c = 2 ^ n * a + c := by
  apply Nat.eq_of_testBit_eq
  intro j
  rw [Nat.testBit_or, Nat.testBit_shiftLeft, Nat.testBit_mul_pow_two_add a h j]
  by_cases hj : j < n
  · have : ¬ (j ≥ n) := Nat.not_le.mpr hj
    simp [hj, this]
  · have hge : j ≥ n := Nat.not_lt.mp hj
    have hcj : c.testBit j = false := by
      apply Nat.testBit_lt_two_pow
      exact lt_of_lt_of_le h (Nat.pow_le_pow_right (by norm_num) hge)
    simp [hj, hge, hcj]

/-- For in-range arguments `vga_entry_color` is just the bit pattern
`fg ||| bg <<< 4`, and that pattern equals `bg * 16 + fg`. -/
theorem vga_entry_color_eq {fg bg : Nat} (hf : fg < 16) (hb : bg < 16) :
    vga_entry_color fg bg = fg ||| (bg <<< 4) ∧
      fg ||| (bg <<< 4) = bg * 16 + fg := by
  have hadd : (bg <<< 4) ||| fg = 2 ^ 4 * bg + fg :=
    shiftLeft_or_eq_add bg 4 (by omega)
  have hcomm : fg ||| (bg <<< 4) = (bg <<< 4) ||| fg := Nat.lor_comm _ _
  have hval : fg ||| (bg <<< 4) = bg * 16 + fg := by
    rw [hcomm, hadd]; ring
  constructor
  · show (fg ||| (bg <<< 4)) % 256 = fg ||| (bg <<< 4)
    rw [hval]; omega
  · exact hval

/-- For in-range arguments `vga_entry` is just the bit pattern
`uc ||| color <<< 8`, and that pattern equals `color * 256 + uc`. -/
theorem vga_entry_eq {uc color : Nat} (hu : uc < 256) (hc : color < 256) :
    vga_entry uc color = uc ||| (color <<< 8) ∧
      uc ||| (color <<< 8) = color * 256 + uc := by
  have hadd : (color <<< 8) ||| uc = 2 ^ 8 * color + uc :=
    shiftLeft_or_eq_add color 8 (by omega)
  have hcomm : uc ||| (color <<< 8) = (color <<< 8) ||| uc := Nat.lor_comm _ _
  have hval : uc ||| (color <<< 8) = color * 256 + uc := by
    rw [hcomm, hadd]; ring
  constructor
  · show ((uc % 256) ||| ((color % 256) <<< 8)) % 65536 = uc ||| (color <<< 8)
    rw [Nat.mod_eq_of_lt hu, Nat.mod_eq_of_lt hc, hval]; omega
  · exact hval

/-- The row-advance step `if (++terminal_row == VGA_HEIGHT) terminal_row = 0`
is addition modulo `VGA_HEIGHT` on in-range rows. -/
theorem row_advance_eq_mod {r : Nat} (h : r < 25) :
    (if r + 1 = VGA_HEIGHT then 0 else r + 1) = (r + 1) % 25 := by
  have hh : VGA_HEIGHT = 25 := rfl
  rw [hh]
  split <;> omega

/-- Unfolding of `terminal_putchar` on a non-newline byte: the cell at the
cursor is overwritten and the cursor advances, wrapping at the end of the
line. -/
theorem putchar_other {c : Nat} (s : TerminalState) (hc : c ≠ 10) :
    terminal_putchar c s =
      if s.column + 1 = 80 then
        { row := if s.row + 1 = 25 then 0 else s.row + 1
          column := 0
          color := s.color
          buffer := fun i =>
            if i = s.row * 80 + s.column then vga_entry c s.color
            else s.buffer i }
      else
        { row := s.row
          column := s.column + 1
          color := s.color
          buffer := fun i =>
            if i = s.row * 80 + s.column then vga_entry c s.color
            else s.buffer i } := by
  unfold terminal_putchar terminal_putentryat
  rw [if_neg hc]
  rfl

/-- Master lemma: `terminal_write` of a newline-free byte sequence that fits
in the current line writes exactly the cells
`row * 80 + column .. row * 80 + column + length - 1`, leaves every other
cell and the color alone, and moves the cursor to the end of the sequence,
wrapping to the start of the next row (mod 25) when the line is filled
exactly. -/
theorem write_no_newline (S : List Nat) (s : TerminalState)
    (hnl : ∀ c ∈ S, c ≠ 10) (hcol : s.column < 80) (hrow : s.row < 25)
    (hfit : s.column + S.length ≤ 80) :
    (terminal_write S s).color = s.color ∧
      (if s.column + S.length = 80 then
        (terminal_write S s).column = 0 ∧
          (terminal_write S s).row = (s.row + 1) % 25
      else
        (terminal_write S s).column = s.column + S.length ∧
          (terminal_write S s).row = s.row) ∧
      (∀ j, j < S.length →
        (terminal_write S s).buffer (s.row * 80 + s.column + j) =
          vga_entry (S.getD j 0) s.color) ∧
      (∀ i, i < s.row * 80 + s.column ∨
          s.row * 80 + s.column + S.length ≤ i →
        (terminal_write S s).buffer i = s.buffer i) := by
  induction S generalizing s with
  | nil =>
    refine ⟨rfl, ?_, ?_, ?_⟩
    · rw [List.length_nil, Nat.add_zero, if_neg (Nat.ne_of_lt hcol)]
      exact ⟨rfl, rfl⟩
    · intro j hj
      rw [List.length_nil] at hj
      omega
    · intro i _
      rfl
  | cons c rest ih =>
    have hc : c ≠ 10 := hnl c (List.mem_cons_self c rest)
    have hstep : terminal_write (c :: rest) s =
        terminal_write rest (terminal_putchar c s) := rfl
    rw [hstep, putchar_other s hc]
    simp only [List.length_cons] at hfit ⊢
    by_cases hw : s.column + 1 = 80
    · have hrest : rest = [] := by
        cases rest with
        | nil => rfl
        | cons d ds =>
          exfalso
          simp only [List.length_cons] at hfit
          omega
      subst hrest
      simp only [List.length_nil] at hfit ⊢
      rw [if_pos hw]
      refine ⟨rfl, ?_, ?_, ?_⟩
      · rw [if_pos (by omega : s.column + (0 + 1) = 80)]
        refine ⟨rfl, ?_⟩
        show (if s.row + 1 = 25 then 0 else s.row + 1) = (s.row + 1) % 25
        split <;> omega
      · intro j hj
        have hj0 : j = 0 := by omega
        subst hj0
        show (if s.row * 80 + s.column + 0 = s.row * 80 + s.column then
            vga_entry c s.color else s.buffer (s.row * 80 + s.column + 0)) =
          vga_entry ((c :: []).getD 0 0) s.color
        rw [if_pos (by omega)]
        rfl
      · intro i hi
        show (if i = s.row * 80 + s.column then vga_entry c s.color
            else s.buffer i) = s.buffer i
        rw [if_neg (by omega)]
    · rw [if_neg hw]
      have hcol1 : s.column + 1 < 80 := by omega
      set B : TerminalState :=
        { row := s.row
          column := s.column + 1
          color := s.color
          buffer := fun i =>
            if i = s.row * 80 + s.column then vga_entry c s.color
            else s.buffer i } with hB
      have hBrow : B.row = s.row := rfl
      have hBcol : B.column = s.column + 1 := rfl
      have hBcolor : B.color = s.color := rfl
      have hBbuf : ∀ i, B.buffer i =
          if i = s.row * 80 + s.column then vga_entry c s.color
          else s.buffer i := fun _ => rfl
      obtain ⟨ih1, ih2, ih3, ih4⟩ :=
        ih B (fun d hd => hnl d (List.mem_cons_of_mem c hd))
          (by rw [hBcol]; exact hcol1) (by rw [hBrow]; exact hrow)
          (by rw [hBcol]; omega)
      simp only [hBrow, hBcol, hBcolor] at ih1 ih2 ih3 ih4
      refine ⟨ih1, ?_, ?_, ?_⟩
      · by_cases hfull : s.column + 1 + rest.length = 80
        · rw [if_pos (show s.column + (rest.length + 1) = 80 by omega)]
          rw [if_pos hfull] at ih2
          exact ih2
        · rw [if_neg (show ¬ s.column + (rest.length + 1) = 80 by omega)]
          rw [if_neg hfull] at ih2
          exact ⟨ih2.1.trans (by omega), ih2.2⟩
      · intro j hj
        cases j with
        | zero =>
          have hfr := ih4 (s.row * 80 + s.column + 0) (Or.inl (by omega))
          rw [hfr]
          rw [if_pos (by omega : s.row * 80 + s.column + 0 = s.row * 80 + s.column)]
          rfl
        | succ j' =>
          have hj' : j' < rest.length := by omega
          have hidx : s.row * 80 + s.column + (j' + 1) =
              s.row * 80 + (s.column + 1) + j' := by omega
          rw [hidx]
          rw [ih3 j' hj']
          rfl
      · intro i hi
        have hout : i < s.row * 80 + (s.column + 1) ∨
            s.row * 80 + (s.column + 1) + rest.length ≤ i := by omega
        rw [ih4 i hout, if_neg (by omega : ¬ i = s.row * 80 + s.column)]

/-! ### Claims -/

/-- C2: `terminal_putchar` on the newline byte, from any in-range cursor
position, sets the column to 0, advances the row by 1 modulo `VGA_HEIGHT`,
and writes no cell: the buffer (and the color) are unchanged. -/
theorem putchar_newline_spec (s : TerminalState) (hrow : s.row < VGA_HEIGHT) :
    (terminal_putchar 10 s).column = 0 ∧
      (terminal_putchar 10 s).row = (s.row + 1) % VGA_HEIGHT ∧
      (terminal_putchar 10 s).buffer = s.buffer ∧
      (terminal_putchar 10 s).color = s.color := by
  have hh : VGA_HEIGHT = 25 := rfl
  refine ⟨rfl, ?_, rfl, rfl⟩
  show (if s.row + 1 = VGA_HEIGHT then 0 else s.row + 1) = (s.row + 1) % VGA_HEIGHT
  rw [hh] at hrow ⊢
  split <;> omega

/-- C2 witness: the newline behaviour at the concrete state reached by
`terminal_init` (row 0). -/
theorem putchar_newline_spec_witness :
    (terminal_putchar 10 (terminal_init fun _ => 0)).column = 0 ∧
      (terminal_putchar 10 (terminal_init fun _ => 0)).row =
        ((terminal_init fun _ => 0).row + 1) % VGA_HEIGHT ∧
      (terminal_putchar 10 (terminal_init fun _ => 0)).buffer =
        (terminal_init fun _ => 0).buffer ∧
      (terminal_putchar 10 (terminal_init fun _ => 0)).color =
        (terminal_init fun _ => 0).color :=
  putchar_newline_spec (terminal_init fun _ => 0) (by decide)

/-- C5: `terminal_writeline` equals `terminal_write` of the string's bytes
(the bytes before the first NUL, by `strlen`) followed by exactly one
newline `terminal_putchar` — the whole resulting state coincides. -/
theorem writeline_eq_write_then_newline (data : List Nat) (s : TerminalState) :
    terminal_writeline data s =
      terminal_putchar 10 (terminal_write (data.take (cstrlen data)) s) := rfl

/-- C6: immediately after `terminal_initialize` the cursor is at (0,0), the
color is light cyan on black, and every grid cell holds
`vga_entry ' '` with that color. -/
theorem init_spec (oldbuf : Nat → Nat) :
    (terminal_init oldbuf).row = 0 ∧
      (terminal_init oldbuf).column = 0 ∧
      (terminal_init oldbuf).color = vga_entry_color VGA_LIGHT_CYAN VGA_BLACK ∧
      ∀ x y, x < VGA_WIDTH → y < VGA_HEIGHT →
        (terminal_init oldbuf).buffer (y * VGA_WIDTH + x) =
          vga_entry 32 (vga_entry_color VGA_LIGHT_CYAN VGA_BLACK) := by
  refine ⟨rfl, rfl, rfl, ?_⟩
  intro x y hx hy
  have hx' : x < 80 := hx
  have hy' : y < 25 := hy
  have hlt : y * VGA_WIDTH + x < VGA_HEIGHT * VGA_WIDTH := by
    show y * 80 + x < 25 * 80
    omega
  show (if y * VGA_WIDTH + x < VGA_HEIGHT * VGA_WIDTH then
      vga_entry 32 (vga_entry_color VGA_LIGHT_CYAN VGA_BLACK)
    else oldbuf (y * VGA_WIDTH + x)) = _
  rw [if_pos hlt]

/-- C6 witness: the cell property of `init_spec` at the concrete corner cell
`x = 79`, `y = 24`. -/
theorem init_spec_witness :
    (terminal_init fun _ => 0).buffer (24 * VGA_WIDTH + 79) =
      vga_entry 32 (vga_entry_color VGA_LIGHT_CYAN VGA_BLACK) :=
  (init_spec fun _ => 0).2.2.2 79 24 (by decide) (by decide)

/-- C8: the VGA cell encoding.  For 4-bit `fg`, `bg` the packed attribute is
`fg ||| bg <<< 4`; for a byte `c` and 8-bit attribute `a` the stored 16-bit
cell is `c ||| a <<< 8`, which has `c` as its low byte and `a` as its high
byte. -/
theorem vga_encoding_spec (fg bg c a : Nat)
    (hf : fg < 16) (hb : bg < 16) (hc : c < 256) (ha : a < 256) :
    vga_entry_color fg bg = fg ||| (bg <<< 4) ∧
      vga_entry c a = c ||| (a <<< 8) ∧
      vga_entry c a % 256 = c ∧
      vga_entry c a / 256 = a := by
  obtain ⟨h1, _⟩ := vga_entry_color_eq hf hb
  obtain ⟨h2, h3⟩ := vga_entry_eq hc ha
  refine ⟨h1, h2, ?_, ?_⟩
  · rw [h2, h3]; omega
  · rw [h2, h3]; omega

/-- C8 witness: the encoding equations at `fg = 14`, `bg = 0`, `c = 65`,
`a = 11`. -/
theorem vga_encoding_spec_witness :
    vga_entry_color 14 0 = 14 ||| (0 <<< 4) ∧
      vga_entry 65 11 = 65 ||| (11 <<< 8) ∧
      vga_entry 65 11 % 256 = 65 ∧
      vga_entry 65 11 / 256 = 11 :=
  vga_encoding_spec 14 0 65 11 (by decide) (by decide) (by decide) (by decide)

/-- C10: `terminal_write` of the empty byte sequence (length 0), and hence
`terminal_writestring` of the empty string, leave the entire terminal state
unchanged. -/
theorem write_nil_id (s : TerminalState) :
    terminal_write [] s = s ∧ terminal_writestring [] s = s :=
  ⟨rfl, rfl⟩

/-- C1 counterexample: the claim's bound `L ≤ width` fails at `L = width`.
Writing 80 copies of the printable byte `'A'` (65) from column 0 of the
freshly reset terminal does not leave the cursor at column `L = 80` with
the row unchanged: the cursor wraps to column 0 of the next row. -/
theorem write_row_claim_cex :
    (terminal_write (List.replicate 80 65) (terminal_init fun _ => 0)).column
        ≠ 80 ∧
      (terminal_write (List.replicate 80 65) (terminal_init fun _ => 0)).row
        ≠ (terminal_init fun _ => 0).row := by
  obtain ⟨_, h2, _, _⟩ :=
    write_no_newline (List.replicate 80 65) (terminal_init fun _ => 0)
      (by decide) (by decide) (by decide) (by decide)
  rw [if_pos (by decide :
    (terminal_init fun _ => 0).column + (List.replicate 80 65).length = 80)]
      at h2
  constructor
  · rw [h2.1]; decide
  · rw [h2.2]; decide

/-- C1 (amended: `L < width` instead of `L ≤ width`): writing a newline-free
byte sequence `S` of length `L < 80` from column 0 leaves the cursor at
column `L` with the row unchanged, the row's cells at columns `[0, L)` hold
`S`'s characters in order with the current attribute, and the row's cells at
columns `[L, 80)` are unchanged. -/
theorem write_row_spec (S : List Nat) (s : TerminalState)
    (hnl : ∀ c ∈ S, c ≠ 10) (hlen : S.length < VGA_WIDTH)
    (hcol : s.column = 0) (hrow : s.row < VGA_HEIGHT) :
    (terminal_write S s).column = S.length ∧
      (terminal_write S s).row = s.row ∧
      (∀ j, j < S.length →
        (terminal_write S s).buffer (s.row * VGA_WIDTH + j) =
          vga_entry (S.getD j 0) s.color) ∧
      (∀ j, S.length ≤ j → j < VGA_WIDTH →
        (terminal_write S s).buffer (s.row * VGA_WIDTH + j) =
          s.buffer (s.row * VGA_WIDTH + j)) := by
  have hlen' : S.length < 80 := hlen
  have hrow' : s.row < 25 := hrow
  obtain ⟨_, h2, h3, h4⟩ :=
    write_no_newline S s hnl (by omega) hrow' (by omega)
  rw [if_neg (by omega : ¬ s.column + S.length = 80)] at h2
  refine ⟨h2.1.trans (by omega), h2.2, ?_, ?_⟩
  · intro j hj
    have h := h3 j hj
    have hidx : s.row * 80 + s.column + j = s.row * 80 + j := by omega
    rw [hidx] at h
    exact h
  · intro j hjl _
    have h := h4 (s.row * 80 + j) (Or.inr (by omega))
    exact h

/-- C1 witness: writing the two bytes `"HI"` in the fresh terminal. -/
theorem write_row_spec_witness :
    (terminal_write [72, 73] (terminal_init fun _ => 0)).column = 2 ∧
      (terminal_write [72, 73] (terminal_init fun _ => 0)).row = 0 ∧
      (terminal_write [72, 73] (terminal_init fun _ => 0)).buffer 1 =
        vga_entry 73 (vga_entry_color VGA_LIGHT_CYAN VGA_BLACK) ∧
      (terminal_write [72, 73] (terminal_init fun _ => 0)).buffer 2 =
        (terminal_init fun _ => 0).buffer 2 := by
  obtain ⟨h1, h2, h3, h4⟩ :=
    write_row_spec [72, 73] (terminal_init fun _ => 0)
      (by decide) (by decide) rfl (by decide)
  exact ⟨h1, h2, h3 1 (by decide), h4 2 (by decide) (by decide)⟩

/-- C3: writing a newline-free byte sequence of length exactly 80 from
column 0 wraps the cursor to column 0 and advances the row by 1 mod 25. -/
theorem write_full_row_spec (S : List Nat) (s : TerminalState)
    (hnl : ∀ c ∈ S, c ≠ 10) (hlen : S.length = VGA_WIDTH)
    (hcol : s.column = 0) (hrow : s.row < VGA_HEIGHT) :
    (terminal_write S s).column = 0 ∧
      (terminal_write S s).row = (s.row + 1) % VGA_HEIGHT := by
  have hlen' : S.length = 80 := hlen
  have hrow' : s.row < 25 := hrow
  obtain ⟨_, h2, _, _⟩ :=
    write_no_newline S s hnl (by omega) hrow' (by omega)
  rw [if_pos (by omega : s.column + S.length = 80)] at h2
  exact h2

/-- C3 witness: 80 copies of the byte `'B'` from the fresh terminal. -/
theorem write_full_row_spec_witness :
    (terminal_write (List.replicate 80 66) (terminal_init fun _ => 0)).column
        = 0 ∧
      (terminal_write (List.replicate 80 66) (terminal_init fun _ => 0)).row
        = ((terminal_init fun _ => 0).row + 1) % VGA_HEIGHT :=
  write_full_row_spec (List.replicate 80 66) (terminal_init fun _ => 0)
    (by decide) (by decide) rfl (by decide)

/-- C7: when the row wraps (newline at row 24, or a non-newline byte at
column 79 of row 24), the row becomes 0 and the wrap modifies no cell: the
newline leaves the whole buffer untouched, and the end-of-line advance
touches only the single cell written at the old cursor position — no row is
shifted and no row is cleared. -/
theorem wrap_frame_spec (s : TerminalState) (c : Nat)
    (h24 : s.row = VGA_HEIGHT - 1) :
    ((terminal_putchar 10 s).row = 0 ∧
      (terminal_putchar 10 s).buffer = s.buffer) ∧
      (c ≠ 10 → s.column = VGA_WIDTH - 1 →
        (terminal_putchar c s).row = 0 ∧
          (terminal_putchar c s).column = 0 ∧
          ∀ i, i ≠ s.row * VGA_WIDTH + s.column →
            (terminal_putchar c s).buffer i = s.buffer i) := by
  have h24' : s.row = 24 := h24
  constructor
  · constructor
    · show (if s.row + 1 = VGA_HEIGHT then 0 else s.row + 1) = 0
      rw [if_pos (by omega : s.row + 1 = VGA_HEIGHT)]
    · rfl
  · intro hc hcol
    have hcol' : s.column = 79 := hcol
    rw [putchar_other s hc, if_pos (by omega : s.column + 1 = 80)]
    refine ⟨?_, rfl, ?_⟩
    · show (if s.row + 1 = 25 then 0 else s.row + 1) = 0
      rw [if_pos (by omega : s.row + 1 = 25)]
    · intro i hi
      show (if i = s.row * 80 + s.column then vga_entry c s.color
          else s.buffer i) = s.buffer i
      rw [if_neg (show ¬ i = s.row * 80 + s.column from hi)]

/-- C7 witness: the wrap at the bottom-right corner of a concrete state. -/
theorem wrap_frame_spec_witness :
    ((terminal_putchar 10 ⟨24, 79, 11, fun _ => 0⟩).row = 0 ∧
      (terminal_putchar 10 ⟨24, 79, 11, fun _ => 0⟩).buffer =
        (fun _ => (0 : Nat))) ∧
      (terminal_putchar 65 ⟨24, 79, 11, fun _ => 0⟩).row = 0 ∧
      (terminal_putchar 65 ⟨24, 79, 11, fun _ => 0⟩).column = 0 ∧
      (terminal_putchar 65 ⟨24, 79, 11, fun _ => 0⟩).buffer 0 = 0 := by
  obtain ⟨⟨h1, h2⟩, h3⟩ :=
    wrap_frame_spec ⟨24, 79, 11, fun _ => 0⟩ 65 rfl
  obtain ⟨h4, h5, h6⟩ := h3 (by decide) rfl
  exact ⟨⟨h1, h2⟩, h4, h5, h6 0 (by decide)⟩

/-- C9: every byte other than the newline byte — carriage return, tab and
NUL included — is written literally: `terminal_putchar` stores the byte as
a cell at the cursor with the current attribute, keeps the color, and
advances the column by one, wrapping at the end of the line. -/
theorem putchar_other_spec (c : Nat) (s : TerminalState)
    (hc : c ≠ 10) (hrow : s.row < VGA_HEIGHT) (hcol : s.column < VGA_WIDTH) :
    (terminal_putchar c s).buffer (s.row * VGA_WIDTH + s.column) =
        vga_entry c s.color ∧
      (∀ i, i ≠ s.row * VGA_WIDTH + s.column →
        (terminal_putchar c s).buffer i = s.buffer i) ∧
      (terminal_putchar c s).color = s.color ∧
      (if s.column + 1 = VGA_WIDTH then
        (terminal_putchar c s).column = 0 ∧
          (terminal_putchar c s).row = (s.row + 1) % VGA_HEIGHT
      else
        (terminal_putchar c s).column = s.column + 1 ∧
          (terminal_putchar c s).row = s.row) := by
  have hrow' : s.row < 25 := hrow
  rw [putchar_other s hc]
  by_cases hw : s.column + 1 = 80
  · have hwW : s.column + 1 = VGA_WIDTH := hw
    rw [if_pos hw, if_pos hwW]
    refine ⟨?_, ?_, rfl, rfl, ?_⟩
    · show (if s.row * 80 + s.column = s.row * 80 + s.column then
          vga_entry c s.color else s.buffer (s.row * 80 + s.column)) =
        vga_entry c s.color
      rw [if_pos rfl]
    · intro i hi
      show (if i = s.row * 80 + s.column then vga_entry c s.color
          else s.buffer i) = s.buffer i
      rw [if_neg (show ¬ i = s.row * 80 + s.column from hi)]
    · show (if s.row + 1 = 25 then 0 else s.row + 1) = (s.row + 1) % 25
      split <;> omega
  · have hwW : ¬ s.column + 1 = VGA_WIDTH := hw
    rw [if_neg hw, if_neg hwW]
    refine ⟨?_, ?_, rfl, rfl, rfl⟩
    · show (if s.row * 80 + s.column = s.row * 80 + s.column then
          vga_entry c s.color else s.buffer (s.row * 80 + s.column)) =
        vga_entry c s.color
      rw [if_pos rfl]
    · intro i hi
      show (if i = s.row * 80 + s.column then vga_entry c s.color
          else s.buffer i) = s.buffer i
      rw [if_neg (show ¬ i = s.row * 80 + s.column from hi)]

/-- C9 witness: the carriage-return byte 13 in the fresh terminal is stored
literally at the cursor cell and the column advances by one. -/
theorem putchar_other_spec_witness :
    (terminal_putchar 13 (terminal_init fun _ => 0)).buffer 0 =
        vga_entry 13 (vga_entry_color VGA_LIGHT_CYAN VGA_BLACK) ∧
      (terminal_putchar 13 (terminal_init fun _ => 0)).buffer 5 =
        (terminal_init fun _ => 0).buffer 5 ∧
      (terminal_putchar 13 (terminal_init fun _ => 0)).column = 1 ∧
      (terminal_putchar 13 (terminal_init fun _ => 0)).row = 0 := by
  obtain ⟨h1, h2, _, h4⟩ :=
    putchar_other_spec 13 (terminal_init fun _ => 0)
      (by decide) (by decide) (by decide)
  rw [if_neg (by decide :
    ¬ (terminal_init fun _ => 0).column + 1 = VGA_WIDTH)] at h4
  exact ⟨h1, h2 5 (by decide), h4.1, h4.2⟩

/-- The invariant holds after a reset. -/
theorem inv_init (oldbuf : Nat → Nat) : TermInv (terminal_init oldbuf) :=
  ⟨by show (0 : Nat) < VGA_HEIGHT; decide,
    by show (0 : Nat) < VGA_WIDTH; decide⟩

/-- `terminal_putchar` preserves the cursor-bounds invariant for every
byte. -/
theorem inv_putchar (c : Nat) (s : TerminalState) (h : TermInv s) :
    TermInv (terminal_putchar c s) := by
  obtain ⟨h1, h2⟩ := h
  have h1' : s.row < 25 := h1
  have h2' : s.column < 80 := h2
  by_cases hc : c = 10
  · subst hc
    show TermInv { s with
      column := 0
      row := if s.row + 1 = VGA_HEIGHT then 0 else s.row + 1 }
    constructor
    · show (if s.row + 1 = VGA_HEIGHT then 0 else s.row + 1) < VGA_HEIGHT
      show (if s.row + 1 = 25 then 0 else s.row + 1) < 25
      split <;> omega
    · show (0 : Nat) < VGA_WIDTH
      decide
  · rw [putchar_other s hc]
    by_cases hw : s.column + 1 = 80
    · rw [if_pos hw]
      constructor
      · show (if s.row + 1 = 25 then 0 else s.row + 1) < VGA_HEIGHT
        show (if s.row + 1 = 25 then 0 else s.row + 1) < 25
        split <;> omega
      · show (0 : Nat) < VGA_WIDTH
        decide
    · rw [if_neg hw]
      exact ⟨h1, by show s.column + 1 < VGA_WIDTH; show s.column + 1 < 80; omega⟩

/-- `terminal_write` preserves the cursor-bounds invariant. -/
theorem inv_write (data : List Nat) (s : TerminalState) (h : TermInv s) :
    TermInv (terminal_write data s) := by
  induction data generalizing s with
  | nil => exact h
  | cons c rest ih =>
    show TermInv (terminal_write rest (terminal_putchar c s))
    exact ih (terminal_putchar c s) (inv_putchar c s h)

/-- C4: the cursor-bounds invariant `row < 25 ∧ column < 80` holds after
`terminal_initialize` and is preserved by `terminal_putchar` (any byte),
`terminal_write` (any byte sequence), `terminal_writeline` and
`terminal_setcolor`, so it holds between any two operations. -/
theorem cursor_inv_spec :
    (∀ oldbuf, TermInv (terminal_init oldbuf)) ∧
      (∀ c s, TermInv s → TermInv (terminal_putchar c s)) ∧
      (∀ data s, TermInv s → TermInv (terminal_write data s)) ∧
      (∀ data s, TermInv s → TermInv (terminal_writeline data s)) ∧
      (∀ color s, TermInv s → TermInv (terminal_setcolor color s)) := by
  refine ⟨inv_init, inv_putchar, inv_write, ?_, ?_⟩
  · intro data s h
    exact inv_putchar 10 _ (inv_write _ s h)
  · intro color s h
    exact ⟨h.1, h.2⟩

/-- C4 witness: the invariant after a reset followed by one
`terminal_writeline` of `"OK"`. -/
theorem cursor_inv_spec_witness :
    TermInv (terminal_writeline [79, 75] (terminal_init fun _ => 0)) :=
  cursor_inv_spec.2.2.2.1 [79, 75] (terminal_init fun _ => 0)
    (cursor_inv_spec.1 (fun _ => 0))
